import Mathlib

/-!
Verification of `checklfs` (src/src/main.rs): a git-tree hygiene checker with
three validators — sidecar (`.meta`) pairing, case-insensitive collision
detection, and LFS size/attribute checking — plus an exit-code aggregator.

The git tree is modelled as a nested inductive: a tree is a list of entries,
each entry being an optional name (`entry.name()` may be unresolvable) paired
with an optional object (`entry.to_object(repo)` may fail; `none` models that
failure). Paths are lists of segments; string primitives are re-implemented
over character lists so that they compute by kernel reduction.
-/

namespace Checklfs

/-- ASCII lowercase of a character; models the locale-independent lowercase
used by the source (`str::to_lowercase`), restricted to ASCII names. -/
def lowerChar (c : Char) : Char :=
  if 65 ≤ c.toNat ∧ c.toNat ≤ 90 then Char.ofNat (c.toNat + 32) else c

/-- Locale-independent lowercase of a string (models `str::to_lowercase`). -/
def lowercase (s : String) : String := String.mk (s.data.map lowerChar)

/-- `listStarts pat cs` is true when `pat` is an initial run of `cs`. -/
def listStarts : List Char → List Char → Bool
  | [], _ => true
  | _ :: _, [] => false
  | p :: ps, c :: cs => p = c && listStarts ps cs

/-- Models Rust `str::starts_with` for string patterns. -/
def strStartsWith (s pat : String) : Bool := listStarts pat.data s.data

/-- Models Rust `str::ends_with` for string patterns. -/
def strEndsWith (s pat : String) : Bool := listStarts pat.data.reverse s.data.reverse

/-- Serialize a segment path the way `PathBuf::join` builds it on a
Unix-style system: segments joined with `/` (`Path::to_str`). -/
def pathStr : List String → String
  | [] => ""
  | [s] => s
  | s :: rest => s ++ "/" ++ pathStr rest

/-- Split a file name at its last dot: `some (stem, ext)` when a dot exists,
with `stem` everything before the last dot and `ext` everything after. -/
def lastDotSplit : List Char → Option (List Char × List Char)
  | [] => none
  | c :: rest =>
    match lastDotSplit rest with
    | some (st, ex) => some (c :: st, ex)
    | none => if c = '.' then some ([], rest) else none

/-- Models Rust `Path::extension` on a single file-name segment together with
the stem: `none` when there is no dot, or when the only dot is the leading
character (a name like `.meta` has no extension in Rust). -/
def fileExtSplit (n : String) : Option (String × String) :=
  match lastDotSplit n.data with
  | some (st, ex) => if st = [] then none else some (String.mk st, String.mk ex)
  | none => none

/-- The base path and sidecar flag the meta walker derives from a blob name
(main.rs lines 91–101): a name with extension `meta` is recorded under the
suffix-stripped path (`set_extension("")`) with the sidecar flag set; any
other name under its own path. -/
def blobBase (pre : List String) (n : String) : List String × Bool :=
  match fileExtSplit n with
  | some (st, ex) => if ex = "meta" then (pre ++ [st], true) else (pre ++ [n], false)
  | none => (pre ++ [n], false)

/-- A git object as the walkers see it: a tree (list of entries), a blob with
a byte size, or any other kind (`_ => continue` in the source). An entry is
an optional name and an optional materialized object, `none` modelling a
failing `entry.to_object(repo)`. -/
inductive Obj : Type where
  | tree : List (Option String × Option Obj) → Obj
  | blob : Nat → Obj
  | other : Obj

abbrev Entry := Option String × Option Obj

/-- Per-base-path accumulator of the sidecar walker (struct MetaStatus). -/
structure MetaStatus where
  file : Bool
  meta : Bool
deriving DecidableEq, Repr

/-- `MetaStatus::file()` in the source. -/
def MetaStatus.fileOnly : MetaStatus := ⟨true, false⟩

/-- `MetaStatus::meta()` in the source. -/
def MetaStatus.metaOnly : MetaStatus := ⟨false, true⟩

/-- The `HashMap<PathBuf, MetaStatus>` of the sidecar walker, modelled as an
association list with (by construction) distinct keys. -/
abbrev MetaMap := List (List String × MetaStatus)

/-- Lookup in the meta-status map. -/
def lookupMeta : MetaMap → List String → Option MetaStatus
  | [], _ => none
  | (k, s) :: rest, key => if k = key then some s else lookupMeta rest key

/-- The map update of main.rs lines 84–88 / 103–115: if the key is present,
set the relevant flag on the existing record (`get_mut`), otherwise insert a
fresh record with only that flag (`insert`). `isMeta = true` sets the
sidecar flag, `isMeta = false` the content flag. -/
def updateMeta (m : MetaMap) (key : List String) (isMeta : Bool) : MetaMap :=
  match m with
  | [] => [(key, if isMeta then MetaStatus.metaOnly else MetaStatus.fileOnly)]
  | (k, s) :: rest =>
    if k = key then
      (k, if isMeta then ⟨s.file, true⟩ else ⟨true, s.meta⟩) :: rest
    else
      (k, s) :: updateMeta rest key isMeta

/-- The recursive walk of the sidecar validator (`iter_tree_meta`,
main.rs lines 58–124), threading the meta-status map; `Except.error ()`
models a failing `entry.to_object(repo)?`. -/
def iter_tree_meta (pre : List String) (entries : List Entry) (names : MetaMap) :
    Except Unit MetaMap :=
  match entries with
  | [] => Except.ok names
  | (none, _) :: rest => iter_tree_meta pre rest names
  | (some n, obj) :: rest =>
    if strStartsWith n "." || strEndsWith n "~" then
      iter_tree_meta pre rest names
    else
      match obj with
      | none => Except.error ()
      | some (Obj.tree sub) =>
        match iter_tree_meta (pre ++ [n]) sub names with
        | Except.error e => Except.error e
        | Except.ok names1 => iter_tree_meta pre rest (updateMeta names1 (pre ++ [n]) false)
      | some (Obj.blob _) =>
        iter_tree_meta pre rest (updateMeta names (blobBase pre n).1 (blobBase pre n).2)
      | some Obj.other => iter_tree_meta pre rest names
termination_by sizeOf entries

/-- The reporting loop of `test_meta` (main.rs lines 42–54): count one
violation per recorded base path that lies under `Assets/`, is not `Assets`
itself, and does not have both flags set. `Path::starts_with("Assets/")`
compares path components, so it holds exactly when the first segment is
`Assets`. -/
def countMeta : MetaMap → Nat
  | [] => 0
  | (path, status) :: rest =>
    if !(match path with | s :: _ => s = "Assets" | [] => false) || path = ["Assets"] then
      countMeta rest
    else if !(status.file && status.meta) then
      countMeta rest + 1
    else
      countMeta rest

/-- `test_meta` (main.rs lines 30–56) given the already-resolved root tree:
walk, then count violations from the final map. -/
def test_meta (entries : List Entry) : Except Unit Nat :=
  (iter_tree_meta [] entries []).map countMeta

/-- The recursive walk of the case-collision validator (`iter_tree_case`,
main.rs lines 138–169). The seen-set (`HashSet<String>`) is modelled as the
list of inserted keys; the insert of line 157 happens for every named entry
before the kind test, and a tree entry is descended after it. -/
def iter_tree_case (pre : List String) (entries : List Entry) (names : List String) :
    Except Unit (Nat × List String) :=
  match entries with
  | [] => Except.ok (0, names)
  | (none, _) :: rest => iter_tree_case pre rest names
  | (some n, obj) :: rest =>
    match obj with
    | none => Except.error ()
    | some o =>
      let key := lowercase (pathStr (pre ++ [n]))
      let step : Nat × List String := if key ∈ names then (1, names) else (0, key :: names)
      match o with
      | Obj.tree sub =>
        match iter_tree_case (pre ++ [n]) sub step.2 with
        | Except.error e => Except.error e
        | Except.ok (c2, names2) =>
          match iter_tree_case pre rest names2 with
          | Except.error e => Except.error e
          | Except.ok (c3, names3) => Except.ok (step.1 + c2 + c3, names3)
      | _ =>
        match iter_tree_case pre rest step.2 with
        | Except.error e => Except.error e
        | Except.ok (c3, names3) => Except.ok (step.1 + c3, names3)
termination_by sizeOf entries

/-- `test_case` (main.rs lines 126–136) given the resolved root tree. -/
def test_case (entries : List Entry) : Except Unit Nat :=
  (iter_tree_case [] entries []).map Prod.fst

/-- The recursive walk of the LFS validator (`iter_tree_lfs`, main.rs lines
182–223). `attr` is the attribute-resolution collaborator
(`repo.get_attr(path, "merge", INDEX_ONLY)`) as a function of the full
path. -/
def iter_tree_lfs (attr : List String → Option String) (pre : List String)
    (entries : List Entry) : Except Unit Nat :=
  match entries with
  | [] => Except.ok 0
  | (none, _) :: rest => iter_tree_lfs attr pre rest
  | (some n, obj) :: rest =>
    match obj with
    | none => Except.error ()
    | some (Obj.tree sub) =>
      match iter_tree_lfs attr (pre ++ [n]) sub with
      | Except.error e => Except.error e
      | Except.ok c1 =>
        match iter_tree_lfs attr pre rest with
        | Except.error e => Except.error e
        | Except.ok c2 => Except.ok (c1 + c2)
    | some (Obj.blob size) =>
      let c : Nat :=
        if attr (pre ++ [n]) ≠ some "lfs" then 0
        else if size < 150 then 0
        else 1
      match iter_tree_lfs attr pre rest with
      | Except.error e => Except.error e
      | Except.ok c2 => Except.ok (c + c2)
    | some Obj.other => iter_tree_lfs attr pre rest
termination_by sizeOf entries

/-- `test_lfs` (main.rs lines 171–180) given the resolved root tree. -/
def test_lfs (attr : List String → Option String) (entries : List Entry) : Except Unit Nat :=
  iter_tree_lfs attr [] entries

/-- The exit-status decision of `main` (main.rs lines 285–290): exit 1 when
the summed violation counts are positive, exit 0 otherwise. -/
def exitCode (meta_errors case_errors lfs_errors : Nat) : Nat :=
  if meta_errors + case_errors + lfs_errors > 0 then 1 else 0

/-- Every named entry of the tree materializes successfully (no
`to_object` failure anywhere). -/
def allOkList : List Entry → Bool
  | [] => true
  | (none, _) :: rest => allOkList rest
  | (some _, none) :: _ => false
  | (some _, some (Obj.tree sub)) :: rest => allOkList sub && allOkList rest
  | (some _, some _) :: rest => allOkList rest
termination_by es => sizeOf es

/-- The pre-order list of case-folded logical paths the case walker inserts:
every named, materialized entry contributes its folded full path, a tree
entry followed by the paths of its subtree. -/
def casePaths (pre : List String) : List Entry → List String
  | [] => []
  | (none, _) :: rest => casePaths pre rest
  | (some _, none) :: rest => casePaths pre rest
  | (some n, some (Obj.tree sub)) :: rest =>
    lowercase (pathStr (pre ++ [n])) :: (casePaths (pre ++ [n]) sub ++ casePaths pre rest)
  | (some n, some _) :: rest => lowercase (pathStr (pre ++ [n])) :: casePaths pre rest
termination_by es => sizeOf es

/-- The flat seen-set scan underlying the case walker: insert keys one by
one, counting each key already present. -/
def scanKeys : List String → List String → Nat × List String
  | [], s => (0, s)
  | k :: ks, s =>
    if k ∈ s then
      ((scanKeys ks s).1 + 1, (scanKeys ks s).2)
    else
      scanKeys ks (k :: s)

/-- Claim C6: the process exits with code 0 if and only if the sum of the
three validators' violation counts is zero, and with code 1 whenever that sum
is greater than zero. -/
theorem exit_code_spec (m c l : Nat) :
    (exitCode m c l = 0 ↔ m + c + l = 0) ∧ (exitCode m c l = 1 ↔ 0 < m + c + l) := by
  unfold exitCode
  split <;> omega

/-- Claim C9: in every one of the three walkers, an entry whose name cannot
be resolved is silently skipped: it produces no violation and no error, and
the walk over the remaining entries continues unaffected. -/
theorem unnamed_entry_skipped (pre : List String) (o : Option Obj) (rest : List Entry)
    (m : MetaMap) (s : List String) (attr : List String → Option String) :
    iter_tree_meta pre ((none, o) :: rest) m = iter_tree_meta pre rest m
    ∧ iter_tree_case pre ((none, o) :: rest) s = iter_tree_case pre rest s
    ∧ iter_tree_lfs attr pre ((none, o) :: rest) = iter_tree_lfs attr pre rest :=
  ⟨by simp [iter_tree_meta], by simp [iter_tree_case], by simp [iter_tree_lfs]⟩

/-- Claim C5: in the sidecar-pairing walker, an entry whose name starts with
`.` or ends with `~` is skipped together with its whole subtree: the walk
continues exactly as if the entry were absent, so nothing below it is
recorded in the meta-status map and nothing below it can contribute a
violation. -/
theorem ignored_name_skipped (pre : List String) (n : String) (o : Option Obj)
    (rest : List Entry) (m : MetaMap)
    (hn : (strStartsWith n "." || strEndsWith n "~") = true) :
    iter_tree_meta pre ((some n, o) :: rest) m = iter_tree_meta pre rest m := by
  rw [iter_tree_meta.eq_def]
  simp [hn]

theorem ignored_name_skipped_witness :
    (strStartsWith ".git" "." || strEndsWith ".git" "~") = true
    ∧ iter_tree_meta [] [(some ".git", some (Obj.blob 5))] []
        = iter_tree_meta [] [] [] :=
  ⟨by decide, ignored_name_skipped [] ".git" (some (Obj.blob 5)) [] [] (by decide)⟩

/-- Claim C4: for a blob entry, the size/attribute walker contributes no
violation when the resolved `merge` attribute is not `lfs`, whatever the
size; when the attribute is `lfs` it contributes exactly one violation if
the byte length is at least 150 and none if it is below 150. -/
theorem lfs_blob_spec (attr : List String → Option String) (pre : List String)
    (n : String) (size : Nat) (rest : List Entry) :
    iter_tree_lfs attr pre ((some n, some (Obj.blob size)) :: rest)
      = (iter_tree_lfs attr pre rest).map (fun c2 =>
          (if attr (pre ++ [n]) = some "lfs" then if size < 150 then 0 else 1 else 0) + c2)
    ∧ iter_tree_lfs attr pre [(some n, some (Obj.blob size))]
      = Except.ok (if attr (pre ++ [n]) = some "lfs" ∧ 150 ≤ size then 1 else 0) := by
  constructor
  · rw [iter_tree_lfs.eq_def]
    cases h : iter_tree_lfs attr pre rest <;> simp [Except.map] <;> split_ifs <;> simp_all
  · simp only [iter_tree_lfs]
    split_ifs <;> simp_all <;> omega

/-- Claim C8: when a directory entry's case-folded logical path is already
in the seen-set, the case walker records one collision for the directory
node itself and still descends into the directory's children, which are
checked independently. -/
theorem dir_collision_still_descends (pre : List String) (n : String)
    (sub rest : List Entry) (s : List String)
    (hmem : lowercase (pathStr (pre ++ [n])) ∈ s) :
    iter_tree_case pre ((some n, some (Obj.tree sub)) :: rest) s
      = (iter_tree_case (pre ++ [n]) sub s).bind (fun r2 =>
          (iter_tree_case pre rest r2.2).map (fun r3 => (1 + r2.1 + r3.1, r3.2))) := by
  rw [iter_tree_case.eq_def]
  simp only [if_pos hmem]
  cases h2 : iter_tree_case (pre ++ [n]) sub s <;> simp [Except.bind, Except.map]
  rename_i r2
  cases h3 : iter_tree_case pre rest r2.2 <;> simp [Except.map]

theorem dir_collision_still_descends_witness :
    lowercase (pathStr [] ++ pathStr ["Foo"]) ∈ ["foo"]
    ∧ iter_tree_case [] [(some "Foo", some (Obj.tree [(some "x", some (Obj.blob 1))]))] ["foo"]
      = (iter_tree_case ["Foo"] [(some "x", some (Obj.blob 1))] ["foo"]).bind (fun r2 =>
          (iter_tree_case [] [] r2.2).map (fun r3 => (1 + r2.1 + r3.1, r3.2))) := by
  constructor
  · decide
  · exact dir_collision_still_descends [] "Foo" [(some "x", some (Obj.blob 1))] [] ["foo"]
      (by decide)

/-- Looking up the key just updated: the stored flags are the OR of the old
flags (absent = both false) with the single flag the update carries. -/
theorem lookupMeta_updateMeta_self (m : MetaMap) (key : List String) (b : Bool) :
    lookupMeta (updateMeta m key b) key
      = some ⟨((lookupMeta m key).getD ⟨false, false⟩).file || !b,
              ((lookupMeta m key).getD ⟨false, false⟩).meta || b⟩ := by
  induction m with
  | nil => cases b <;> simp [updateMeta, lookupMeta, MetaStatus.metaOnly, MetaStatus.fileOnly]
  | cons e rest ih =>
    obtain ⟨k, st⟩ := e
    by_cases hk : k = key
    · subst hk
      cases b <;> simp [updateMeta, lookupMeta]
    · simp [updateMeta, lookupMeta, hk, ih]

/-- Updating one key leaves every other key's record unchanged. -/
theorem lookupMeta_updateMeta_other (m : MetaMap) (key k2 : List String) (b : Bool)
    (hne : k2 ≠ key) : lookupMeta (updateMeta m key b) k2 = lookupMeta m k2 := by
  have hne2 : key ≠ k2 := Ne.symm hne
  induction m with
  | nil => simp [updateMeta, lookupMeta, hne2]
  | cons e rest ih =>
    obtain ⟨k, st⟩ := e
    by_cases hk : k = key
    · subst hk
      simp [updateMeta, lookupMeta, hne2]
    · simp [updateMeta, lookupMeta, hk, ih]

/-- Claim C2: a directory entry is merged into the meta-status map (content
flag) only after its whole subtree has been walked; a blob with extension
`meta` is merged under the suffix-stripped base path with the sidecar flag,
any other blob under its own path with the content flag; and merging ORs the
new flag into an existing record, never clearing a flag already set. -/
theorem meta_walk_step (pre : List String) (n st : String) (sub rest : List Entry)
    (m : MetaMap) (size : Nat) (key : List String) (b : Bool)
    (hn : (strStartsWith n "." || strEndsWith n "~") = false) :
    iter_tree_meta pre ((some n, some (Obj.tree sub)) :: rest) m
      = (iter_tree_meta (pre ++ [n]) sub m).bind (fun m1 =>
          iter_tree_meta pre rest (updateMeta m1 (pre ++ [n]) false))
    ∧ (fileExtSplit n = some (st, "meta") →
        iter_tree_meta pre ((some n, some (Obj.blob size)) :: rest) m
          = iter_tree_meta pre rest (updateMeta m (pre ++ [st]) true))
    ∧ ((fileExtSplit n).map Prod.snd ≠ some "meta" →
        iter_tree_meta pre ((some n, some (Obj.blob size)) :: rest) m
          = iter_tree_meta pre rest (updateMeta m (pre ++ [n]) false))
    ∧ lookupMeta (updateMeta m key b) key
        = some ⟨((lookupMeta m key).getD ⟨false, false⟩).file || !b,
                ((lookupMeta m key).getD ⟨false, false⟩).meta || b⟩
    ∧ (∀ k2, k2 ≠ key → lookupMeta (updateMeta m key b) k2 = lookupMeta m k2) := by
  refine ⟨?_, ?_, ?_, lookupMeta_updateMeta_self m key b,
    fun k2 h2 => lookupMeta_updateMeta_other m key k2 b h2⟩
  · cases h2 : iter_tree_meta (pre ++ [n]) sub m <;>
      (rw [iter_tree_meta.eq_def]; simp [hn, h2, Except.bind])
  · intro hext
    rw [iter_tree_meta.eq_def]
    simp [hn, blobBase, hext]
  · intro hext
    rw [iter_tree_meta.eq_def]
    cases h2 : fileExtSplit n with
    | none => simp [hn, blobBase, h2]
    | some p =>
      obtain ⟨st2, ex2⟩ := p
      rw [h2] at hext
      have hex : ex2 ≠ "meta" := by simpa using hext
      simp [hn, blobBase, h2, hex]

theorem meta_walk_step_witness :
    (strStartsWith "a.meta" "." || strEndsWith "a.meta" "~") = false
    ∧ (iter_tree_meta [] [(some "a.meta", some (Obj.tree []))] []
        = (iter_tree_meta ["a.meta"] [] []).bind (fun m1 =>
            iter_tree_meta [] [] (updateMeta m1 ["a.meta"] false))
      ∧ (fileExtSplit "a.meta" = some ("a", "meta") →
          iter_tree_meta [] [(some "a.meta", some (Obj.blob 7))] []
            = iter_tree_meta [] [] (updateMeta [] ["a"] true))
      ∧ ((fileExtSplit "a.meta").map Prod.snd ≠ some "meta" →
          iter_tree_meta [] [(some "a.meta", some (Obj.blob 7))] []
            = iter_tree_meta [] [] (updateMeta [] ["a.meta"] false))
      ∧ lookupMeta (updateMeta [] ["a"] true) ["a"]
          = some ⟨((lookupMeta [] ["a"]).getD ⟨false, false⟩).file || !true,
                  ((lookupMeta [] ["a"]).getD ⟨false, false⟩).meta || true⟩
      ∧ (∀ k2, k2 ≠ ["a"] → lookupMeta (updateMeta [] ["a"] true) k2 = lookupMeta [] k2)) :=
  ⟨by decide, meta_walk_step [] "a.meta" "a" [] [] [] 7 ["a"] true (by decide)⟩

/-- Claim C7: a failing `to_object` on a named (and, for the meta walker,
non-ignored) entry makes the walker return the error at once — the remaining
entries are not visited and no partial count survives — and an error from a
subtree walk propagates through the enclosing directory entry. -/
theorem materialize_error_aborts (pre : List String) (n : String) (sub rest : List Entry)
    (m : MetaMap) (s : List String) (attr : List String → Option String)
    (hn : (strStartsWith n "." || strEndsWith n "~") = false) :
    iter_tree_meta pre ((some n, none) :: rest) m = Except.error ()
    ∧ iter_tree_case pre ((some n, none) :: rest) s = Except.error ()
    ∧ iter_tree_lfs attr pre ((some n, none) :: rest) = Except.error ()
    ∧ (iter_tree_meta (pre ++ [n]) sub m = Except.error () →
        iter_tree_meta pre ((some n, some (Obj.tree sub)) :: rest) m = Except.error ())
    ∧ ((∀ s2, iter_tree_case (pre ++ [n]) sub s2 = Except.error ()) →
        iter_tree_case pre ((some n, some (Obj.tree sub)) :: rest) s = Except.error ())
    ∧ (iter_tree_lfs attr (pre ++ [n]) sub = Except.error () →
        iter_tree_lfs attr pre ((some n, some (Obj.tree sub)) :: rest) = Except.error ()) := by
  refine ⟨?_, ?_, ?_, ?_, ?_, ?_⟩
  · rw [iter_tree_meta.eq_def]
    simp [hn]
  · rw [iter_tree_case.eq_def]
  · rw [iter_tree_lfs.eq_def]
  · intro herr
    rw [iter_tree_meta.eq_def]
    simp [hn, herr]
  · intro herr
    rw [iter_tree_case.eq_def]
    simp only []
    rw [herr]
  · intro herr
    rw [iter_tree_lfs.eq_def]
    simp [herr]

theorem materialize_error_aborts_witness :
    (strStartsWith "a" "." || strEndsWith "a" "~") = false
    ∧ (iter_tree_meta [] [(some "a", none)] [] = Except.error ()
      ∧ iter_tree_case [] [(some "a", none)] [] = Except.error ()
      ∧ iter_tree_lfs (fun _ => none) [] [(some "a", none)] = Except.error ()
      ∧ (iter_tree_meta ["a"] [(some "b", none)] [] = Except.error () →
          iter_tree_meta [] [(some "a", some (Obj.tree [(some "b", none)]))] []
            = Except.error ())
      ∧ ((∀ s2, iter_tree_case ["a"] [(some "b", none)] s2 = Except.error ()) →
          iter_tree_case [] [(some "a", some (Obj.tree [(some "b", none)]))] []
            = Except.error ())
      ∧ (iter_tree_lfs (fun _ => none) ["a"] [(some "b", none)] = Except.error () →
          iter_tree_lfs (fun _ => none) [] [(some "a", some (Obj.tree [(some "b", none)]))]
            = Except.error ())) :=
  ⟨by decide, materialize_error_aborts [] "a" [(some "b", none)]
    [] [] [] (fun _ => none) (by decide)⟩

/-- Claim C10: the hidden-name / backup-suffix ignore rules are applied only
by the sidecar walker: the case and LFS walkers treat an entry whose name
starts with `.` or ends with `~` exactly like any other entry — the case
walker inserts its folded path (counting a collision when present) and still
descends into such a directory, and the LFS walker still flags such a blob
when its attribute is `lfs` and its size is at least 150. -/
theorem ignore_rules_only_meta (pre : List String) (n : String) (size : Nat)
    (sub rest : List Entry) (s : List String) (attr : List String → Option String)
    (hn : (strStartsWith n "." || strEndsWith n "~") = true) :
    iter_tree_case pre ((some n, some (Obj.blob size)) :: rest) s
      = (if lowercase (pathStr (pre ++ [n])) ∈ s then
           (iter_tree_case pre rest s).map (fun r => (1 + r.1, r.2))
         else iter_tree_case pre rest (lowercase (pathStr (pre ++ [n])) :: s))
    ∧ iter_tree_case pre ((some n, some (Obj.tree sub)) :: rest) s
      = ((iter_tree_case (pre ++ [n]) sub
            (if lowercase (pathStr (pre ++ [n])) ∈ s then s
             else lowercase (pathStr (pre ++ [n])) :: s)).bind (fun r2 =>
          (iter_tree_case pre rest r2.2).map (fun r3 =>
            ((if lowercase (pathStr (pre ++ [n])) ∈ s then 1 else 0) + r2.1 + r3.1, r3.2))))
    ∧ iter_tree_lfs attr pre ((some n, some (Obj.blob size)) :: rest)
      = (iter_tree_lfs attr pre rest).map (fun c2 =>
          (if attr (pre ++ [n]) = some "lfs" then if size < 150 then 0 else 1 else 0) + c2)
    ∧ (attr (pre ++ [n]) = some "lfs" → 150 ≤ size →
        iter_tree_lfs attr pre [(some n, some (Obj.blob size))] = Except.ok 1)
    ∧ iter_tree_lfs attr pre ((some n, some (Obj.tree sub)) :: rest)
      = (iter_tree_lfs attr (pre ++ [n]) sub).bind (fun c1 =>
          (iter_tree_lfs attr pre rest).map (fun c2 => c1 + c2)) := by
  refine ⟨?_, ?_, ?_, ?_, ?_⟩
  · rw [iter_tree_case.eq_def]
    by_cases hmem : lowercase (pathStr (pre ++ [n])) ∈ s
    · simp only [if_pos hmem]
      cases h3 : iter_tree_case pre rest s <;> simp [Except.map]
    · simp only [if_neg hmem]
      cases h3 : iter_tree_case pre rest (lowercase (pathStr (pre ++ [n])) :: s) <;>
        simp [Except.map]
  · rw [iter_tree_case.eq_def]
    by_cases hmem : lowercase (pathStr (pre ++ [n])) ∈ s <;>
      [simp only [if_pos hmem]; simp only [if_neg hmem]] <;>
      [cases h2 : iter_tree_case (pre ++ [n]) sub s;
       cases h2 : iter_tree_case (pre ++ [n]) sub (lowercase (pathStr (pre ++ [n])) :: s)] <;>
      simp [Except.bind, Except.map] <;>
      (rename_i r2; cases h3 : iter_tree_case pre rest r2.2 <;> simp [Except.map])
  · rw [iter_tree_lfs.eq_def]
    cases h3 : iter_tree_lfs attr pre rest <;> simp [Except.map] <;> split_ifs <;> simp_all
  · intro hattr hsize
    rw [iter_tree_lfs.eq_def]
    simp [iter_tree_lfs, hattr, Nat.not_lt.mpr hsize]
  · cases h2 : iter_tree_lfs attr (pre ++ [n]) sub <;>
      cases h3 : iter_tree_lfs attr pre rest <;>
      (rw [iter_tree_lfs.eq_def]; simp [h2, h3, Except.bind, Except.map])

theorem ignore_rules_only_meta_witness :
    (strStartsWith ".hidden" "." || strEndsWith ".hidden" "~") = true
    ∧ (iter_tree_case [] [(some ".hidden", some (Obj.blob 200))] []
        = (if lowercase (pathStr [".hidden"]) ∈ ([] : List String) then
             (iter_tree_case [] [] []).map (fun r => (1 + r.1, r.2))
           else iter_tree_case [] [] [lowercase (pathStr [".hidden"])])
      ∧ iter_tree_case [] [(some ".hidden", some (Obj.tree []))] []
        = ((iter_tree_case [".hidden"] []
              (if lowercase (pathStr [".hidden"]) ∈ ([] : List String) then []
               else [lowercase (pathStr [".hidden"])])).bind (fun r2 =>
            (iter_tree_case [] [] r2.2).map (fun r3 =>
              ((if lowercase (pathStr [".hidden"]) ∈ ([] : List String) then 1 else 0)
                + r2.1 + r3.1, r3.2))))
      ∧ iter_tree_lfs (fun _ => some "lfs") [] [(some ".hidden", some (Obj.blob 200))]
        = (iter_tree_lfs (fun _ => some "lfs") [] []).map (fun c2 =>
            (if (fun _ => some "lfs") [".hidden"] = some "lfs" then
               if 200 < 150 then 0 else 1 else 0) + c2)
      ∧ ((fun _ => some "lfs") [".hidden"] = some "lfs" → 150 ≤ 200 →
          iter_tree_lfs (fun _ => some "lfs") [] [(some ".hidden", some (Obj.blob 200))]
            = Except.ok 1)
      ∧ iter_tree_lfs (fun _ => some "lfs") [] [(some ".hidden", some (Obj.tree []))]
        = (iter_tree_lfs (fun _ => some "lfs") [".hidden"] []).bind (fun c1 =>
            (iter_tree_lfs (fun _ => some "lfs") [] []).map
              (fun c2 => c1 + c2))) :=
  ⟨by decide, ignore_rules_only_meta [] ".hidden" 200 [] [] []
    (fun _ => some "lfs") (by decide)⟩

/-- The reporting loop counts exactly the map entries that are under the
asset subtree, are not the root itself, and lack one of the two flags. -/
theorem countMeta_eq_countP (m : MetaMap) :
    countMeta m = List.countP (fun e : List String × MetaStatus =>
      decide (e.1.head? = some "Assets" ∧ e.1 ≠ ["Assets"]
        ∧ ¬(e.2.file = true ∧ e.2.meta = true))) m := by
  induction m with
  | nil => simp [countMeta]
  | cons e rest ih =>
    obtain ⟨path, status⟩ := e
    rw [countMeta.eq_def, List.countP_cons]
    rcases path with _ | ⟨s, tail⟩
    · simp [ih]
    · by_cases hs : s = "Assets"
      · subst hs
        obtain ⟨f, mt⟩ := status
        by_cases ht : tail = ([] : List String)
        · subst ht
          cases f <;> cases mt <;> simp [ih]
        · cases f <;> cases mt <;> simp [ih, ht]
      · simp [ih, hs]

/-- The keys of an updated map: unchanged when the key was present, the key
appended when it was absent. -/
theorem updateMeta_keys (m : MetaMap) (key : List String) (b : Bool) :
    (updateMeta m key b).map Prod.fst
      = if key ∈ m.map Prod.fst then m.map Prod.fst else m.map Prod.fst ++ [key] := by
  induction m with
  | nil => simp [updateMeta]
  | cons e rest ih =>
    obtain ⟨k, st⟩ := e
    by_cases hk : k = key
    · simp only [updateMeta, if_pos hk, List.map_cons]
      rw [if_pos (List.mem_cons.mpr (Or.inl hk.symm))]
    · have hk2 : ¬key = k := fun h => hk h.symm
      simp only [updateMeta, if_neg hk, List.map_cons, ih, List.mem_cons]
      by_cases hmem : key ∈ rest.map Prod.fst
      · simp [hmem, hk2]
      · simp [hmem, hk2]

/-- Updating preserves distinctness of the map's keys. -/
theorem updateMeta_nodup (m : MetaMap) (key : List String) (b : Bool)
    (h : (m.map Prod.fst).Nodup) : ((updateMeta m key b).map Prod.fst).Nodup := by
  rw [updateMeta_keys]
  split_ifs with hmem
  · exact h
  · simp [List.nodup_append, h, hmem]

/-- The sidecar walk preserves distinctness of the map's keys. -/
theorem iter_tree_meta_nodup (pre : List String) (es : List Entry) (m m2 : MetaMap)
    (hrun : iter_tree_meta pre es m = Except.ok m2)
    (hnd : (m.map Prod.fst).Nodup) : (m2.map Prod.fst).Nodup := by
  induction pre, es, m using iter_tree_meta.induct generalizing m2 with
  | case1 pre m =>
    rw [iter_tree_meta.eq_def] at hrun
    simp only [Except.ok.injEq] at hrun
    exact hrun ▸ hnd
  | case2 pre m o rest ih =>
    rw [iter_tree_meta.eq_def] at hrun
    exact ih m2 hrun hnd
  | case3 pre m n obj rest hig ih =>
    rw [iter_tree_meta.eq_def] at hrun
    simp only [hig, if_true] at hrun
    exact ih m2 hrun hnd
  | case4 pre m n rest hig =>
    rw [iter_tree_meta.eq_def] at hrun
    simp [hig] at hrun
  | case5 pre m n rest hig sub e herr =>
    rw [iter_tree_meta.eq_def] at hrun
    simp [hig, herr] at hrun
  | case6 pre m n rest hig sub m1 hok ih1 ih2 =>
    rw [iter_tree_meta.eq_def] at hrun
    simp only [if_neg hig] at hrun
    rw [hok] at hrun
    exact ih2 m2 (by exact hrun) (updateMeta_nodup m1 (pre ++ [n]) false (ih1 m1 hok hnd))
  | case7 pre m n rest hig sz ih =>
    rw [iter_tree_meta.eq_def] at hrun
    simp only [if_neg hig] at hrun
    exact ih m2 (by exact hrun) (updateMeta_nodup m (blobBase pre n).1 (blobBase pre n).2 hnd)
  | case8 pre m n rest hig ih =>
    rw [iter_tree_meta.eq_def] at hrun
    simp only [if_neg hig] at hrun
    exact ih m2 (by exact hrun) hnd

/-- Claim C1: after the sidecar walk, each recorded base path that starts
with segment `Assets` and is not `["Assets"]` itself counts as exactly one
violation precisely when its two flags are not both set, and every other
recorded base path counts as no violation whatever its flags; the recorded
base paths of a completed walk are distinct, so the count is one per base
path. -/
theorem meta_violation_count (m : MetaMap) (es : List Entry) (m2 : MetaMap)
    (hrun : iter_tree_meta [] es [] = Except.ok m2) :
    countMeta m = List.countP (fun e : List String × MetaStatus =>
      decide (e.1.head? = some "Assets" ∧ e.1 ≠ ["Assets"]
        ∧ ¬(e.2.file = true ∧ e.2.meta = true))) m
    ∧ (m2.map Prod.fst).Nodup :=
  ⟨countMeta_eq_countP m, iter_tree_meta_nodup [] es [] m2 hrun (by simp)⟩

theorem meta_violation_count_witness :
    iter_tree_meta []
        [(some "Assets", some (Obj.tree
          [(some "a.txt", some (Obj.blob 1)), (some "a.txt.meta", some (Obj.blob 1)),
           (some "b.txt", some (Obj.blob 1))]))] []
      = Except.ok [(["Assets", "a.txt"], ⟨true, true⟩), (["Assets", "b.txt"], ⟨true, false⟩),
                   (["Assets"], ⟨true, false⟩)]
    ∧ (countMeta [(["Assets", "a.txt"], ⟨true, true⟩), (["Assets", "b.txt"], ⟨true, false⟩),
                   (["Assets"], ⟨true, false⟩)]
        = List.countP (fun e : List String × MetaStatus =>
            decide (e.1.head? = some "Assets" ∧ e.1 ≠ ["Assets"]
              ∧ ¬(e.2.file = true ∧ e.2.meta = true)))
            [(["Assets", "a.txt"], ⟨true, true⟩), (["Assets", "b.txt"], ⟨true, false⟩),
             (["Assets"], ⟨true, false⟩)]
      ∧ (([(["Assets", "a.txt"], (⟨true, true⟩ : MetaStatus)),
           (["Assets", "b.txt"], ⟨true, false⟩),
           (["Assets"], ⟨true, false⟩)].map Prod.fst).Nodup)) := by
  have hrun : iter_tree_meta []
      [(some "Assets", some (Obj.tree
        [(some "a.txt", some (Obj.blob 1)), (some "a.txt.meta", some (Obj.blob 1)),
         (some "b.txt", some (Obj.blob 1))]))] []
      = Except.ok [(["Assets", "a.txt"], ⟨true, true⟩), (["Assets", "b.txt"], ⟨true, false⟩),
                   (["Assets"], ⟨true, false⟩)] := by
    simp +decide [iter_tree_meta, blobBase, fileExtSplit, lastDotSplit, updateMeta]
  exact ⟨hrun, meta_violation_count _ _ _ hrun⟩

/-- Splitting a seen-set scan over an appended key list. -/
theorem scanKeys_append (xs ys : List String) : ∀ s,
    scanKeys (xs ++ ys) s
      = ((scanKeys xs s).1 + (scanKeys ys (scanKeys xs s).2).1,
         (scanKeys ys (scanKeys xs s).2).2) := by
  induction xs with
  | nil => intro s; simp [scanKeys]
  | cons k ks ih =>
    intro s
    simp only [List.cons_append, scanKeys]
    by_cases hk : k ∈ s
    · simp [hk, ih, Prod.ext_iff]
      omega
    · simp [hk, ih]

/-- The final seen-set of a scan is the union of the start set and the keys. -/
theorem scanKeys_snd_toFinset (ks : List String) : ∀ s,
    (scanKeys ks s).2.toFinset = s.toFinset ∪ ks.toFinset := by
  induction ks with
  | nil => intro s; simp [scanKeys]
  | cons k rest ih =>
    intro s
    simp only [scanKeys]
    by_cases hk : k ∈ s
    · simp only [if_pos hk, ih, List.toFinset_cons, Finset.union_insert,
        Finset.insert_eq_self.mpr (Finset.mem_union_left _ (List.mem_toFinset.mpr hk))]
    · simp only [if_neg hk, ih, List.toFinset_cons, Finset.insert_union, Finset.union_insert]

/-- The number of duplicate hits of a scan: list length minus the number of
distinct keys not already in the start set. -/
theorem scanKeys_fst (ks : List String) : ∀ s,
    (scanKeys ks s).1 = ks.length - (ks.toFinset \ s.toFinset).card := by
  induction ks with
  | nil => intro s; simp [scanKeys]
  | cons k rest ih =>
    intro s
    have hsub : (rest.toFinset \ s.toFinset).card ≤ rest.length :=
      le_trans (Finset.card_le_card Finset.sdiff_subset) (List.toFinset_card_le rest)
    simp only [scanKeys, List.toFinset_cons, List.length_cons]
    by_cases hk : k ∈ s
    · rw [Finset.insert_sdiff_of_mem _ (List.mem_toFinset.mpr hk)]
      simp only [if_pos hk, ih]
      omega
    · simp only [if_neg hk]
      rw [ih (k :: s), List.toFinset_cons, Finset.sdiff_insert,
        Finset.insert_sdiff_of_not_mem _ (fun hmem => hk (List.mem_toFinset.mp hmem))]
      by_cases hkr : k ∈ rest.toFinset \ s.toFinset
      · rw [Finset.card_erase_of_mem hkr, Finset.insert_eq_self.mpr hkr]
        have h1 : 1 ≤ (rest.toFinset \ s.toFinset).card := Finset.card_pos.mpr ⟨k, hkr⟩
        omega
      · rw [Finset.erase_eq_of_not_mem hkr, Finset.card_insert_of_not_mem hkr]
        omega

/-- Per-key surplus formulation: summing `count − 1` over the distinct keys
equals length minus the number of distinct keys. -/
theorem sum_count_sub_one (L : List String) :
    ∑ k in L.toFinset, (L.count k - 1) = L.length - L.toFinset.card := by
  have h1 : ∑ k in L.toFinset, L.count k = L.length := List.sum_toFinset_count_eq_length L
  have h2 : ∑ k in L.toFinset, ((L.count k - 1) + 1) = ∑ k in L.toFinset, L.count k :=
    Finset.sum_congr rfl (fun k hk =>
      Nat.sub_add_cancel (List.count_pos_iff.mpr (List.mem_toFinset.mp hk)))
  rw [Finset.sum_add_distrib, Finset.sum_const, smul_eq_mul, mul_one] at h2
  omega

/-- One step of the seen-set scan: a hit contributes one and keeps the set,
a miss contributes nothing and inserts the key. -/
theorem scanKeys_cons (k : String) (L : List String) (s : List String) :
    scanKeys (k :: L) s
      = ((if k ∈ s then 1 else 0) + (scanKeys L (if k ∈ s then s else k :: s)).1,
         (scanKeys L (if k ∈ s then s else k :: s)).2) := by
  by_cases hk : k ∈ s <;> simp [scanKeys, hk, Nat.add_comm]

/-- On a tree with no materialization failures, the case walker computes the
seen-set scan of its pre-order folded path list. -/
theorem iter_case_eq_scan (pre : List String) (es : List Entry) : ∀ s,
    allOkList es = true →
      iter_tree_case pre es s = Except.ok (scanKeys (casePaths pre es) s) := by
  induction pre, es using casePaths.induct with
  | case1 pre =>
    intro s h
    simp [iter_tree_case, casePaths, scanKeys]
  | case2 pre o rest ih =>
    intro s h
    rw [allOkList.eq_def] at h
    rw [iter_tree_case.eq_def, casePaths.eq_def]
    exact ih s h
  | case3 pre n rest =>
    intro s h
    rw [allOkList.eq_def] at h
    simp at h
  | case4 pre n sub rest ihsub ihrest =>
    intro s h
    rw [allOkList.eq_def] at h
    simp only [Bool.and_eq_true] at h
    obtain ⟨hsub, hrest⟩ := h
    rw [iter_tree_case.eq_def, casePaths.eq_def]
    simp only []
    by_cases hk : lowercase (pathStr (pre ++ [n])) ∈ s
    · simp only [if_pos hk]
      rcases hsc : scanKeys (casePaths (pre ++ [n]) sub) s with ⟨c2, s2⟩
      rcases hsc3 : scanKeys (casePaths pre rest) s2 with ⟨c3, s3⟩
      rw [ihsub s hsub, hsc]
      simp only []
      rw [ihrest s2 hrest, hsc3]
      simp only []
      rw [scanKeys_cons, if_pos hk, if_pos hk, scanKeys_append, hsc]
      simp only []
      rw [hsc3]
      simp [Nat.add_assoc]
    · simp only [if_neg hk]
      rcases hsc : scanKeys (casePaths (pre ++ [n]) sub) (lowercase (pathStr (pre ++ [n])) :: s)
        with ⟨c2, s2⟩
      rcases hsc3 : scanKeys (casePaths pre rest) s2 with ⟨c3, s3⟩
      rw [ihsub (lowercase (pathStr (pre ++ [n])) :: s) hsub, hsc]
      simp only []
      rw [ihrest s2 hrest, hsc3]
      simp only []
      rw [scanKeys_cons, if_neg hk, if_neg hk, scanKeys_append, hsc]
      simp only []
      rw [hsc3]
      simp [Nat.add_assoc]
  | case5 pre n o rest hno ihrest =>
    intro s h
    cases o with
    | tree sub => exact absurd rfl (hno sub)
    | blob sz =>
      rw [allOkList.eq_def] at h
      simp only [] at h
      rw [iter_tree_case.eq_def, casePaths.eq_def]
      simp only []
      by_cases hk : lowercase (pathStr (pre ++ [n])) ∈ s
      · simp only [if_pos hk]
        rcases hsc3 : scanKeys (casePaths pre rest) s with ⟨c3, s3⟩
        rw [ihrest s h, hsc3]
        simp only []
        rw [scanKeys_cons, if_pos hk, if_pos hk, hsc3]
      · simp only [if_neg hk]
        rcases hsc3 : scanKeys (casePaths pre rest) (lowercase (pathStr (pre ++ [n])) :: s)
          with ⟨c3, s3⟩
        rw [ihrest (lowercase (pathStr (pre ++ [n])) :: s) h, hsc3]
        simp only []
        rw [scanKeys_cons, if_neg hk, if_neg hk, hsc3]
    | other =>
      rw [allOkList.eq_def] at h
      simp only [] at h
      rw [iter_tree_case.eq_def, casePaths.eq_def]
      simp only []
      by_cases hk : lowercase (pathStr (pre ++ [n])) ∈ s
      · simp only [if_pos hk]
        rcases hsc3 : scanKeys (casePaths pre rest) s with ⟨c3, s3⟩
        rw [ihrest s h, hsc3]
        simp only []
        rw [scanKeys_cons, if_pos hk, if_pos hk, hsc3]
      · simp only [if_neg hk]
        rcases hsc3 : scanKeys (casePaths pre rest) (lowercase (pathStr (pre ++ [n])) :: s)
          with ⟨c3, s3⟩
        rw [ihrest (lowercase (pathStr (pre ++ [n])) :: s) h, hsc3]
        simp only []
        rw [scanKeys_cons, if_neg hk, if_neg hk, hsc3]

/-- Claim C3: on failure-free trees the case walker's total is, for each
group of entries whose folded logical paths coincide, the number of
occurrences beyond the first — zero when all folded paths are distinct — and
the total is unchanged under any reordering of the folded path list. -/
theorem case_collision_count (es es2 : List Entry)
    (h : allOkList es = true) (h2 : allOkList es2 = true)
    (hperm : (casePaths [] es).Perm (casePaths [] es2)) :
    ∃ c s s2, iter_tree_case [] es [] = Except.ok (c, s)
      ∧ iter_tree_case [] es2 [] = Except.ok (c, s2)
      ∧ c = ∑ k in (casePaths [] es).toFinset, ((casePaths [] es).count k - 1)
      ∧ ((casePaths [] es).Nodup → c = 0) := by
  have e1 := iter_case_eq_scan [] es [] h
  have e2 := iter_case_eq_scan [] es2 [] h2
  have hc1 : (scanKeys (casePaths [] es) []).1
      = (casePaths [] es).length - (casePaths [] es).toFinset.card := by
    rw [scanKeys_fst]
    simp
  have hc2 : (scanKeys (casePaths [] es2) []).1
      = (casePaths [] es2).length - (casePaths [] es2).toFinset.card := by
    rw [scanKeys_fst]
    simp
  refine ⟨(scanKeys (casePaths [] es) []).1, (scanKeys (casePaths [] es) []).2,
    (scanKeys (casePaths [] es2) []).2, e1, ?_, ?_, ?_⟩
  · rw [e2]
    have hceq : (scanKeys (casePaths [] es2) []).1 = (scanKeys (casePaths [] es) []).1 := by
      rw [hc1, hc2, hperm.length_eq, List.toFinset_eq_of_perm _ _ hperm]
    rw [← hceq]
  · rw [hc1, sum_count_sub_one]
  · intro hnd
    rw [hc1, List.toFinset_card_of_nodup hnd]
    omega

theorem case_collision_count_witness :
    allOkList [(some "A", some (Obj.blob 1)), (some "a", some (Obj.blob 2)),
               (some "b", some Obj.other)] = true
    ∧ allOkList [(some "b", some Obj.other), (some "a", some (Obj.blob 2)),
                 (some "A", some (Obj.blob 1))] = true
    ∧ (casePaths [] [(some "A", some (Obj.blob 1)), (some "a", some (Obj.blob 2)),
        (some "b", some Obj.other)]).Perm
        (casePaths [] [(some "b", some Obj.other), (some "a", some (Obj.blob 2)),
          (some "A", some (Obj.blob 1))])
    ∧ ∃ c s s2,
        iter_tree_case [] [(some "A", some (Obj.blob 1)), (some "a", some (Obj.blob 2)),
          (some "b", some Obj.other)] [] = Except.ok (c, s)
        ∧ iter_tree_case [] [(some "b", some Obj.other), (some "a", some (Obj.blob 2)),
            (some "A", some (Obj.blob 1))] [] = Except.ok (c, s2)
        ∧ c = ∑ k in (casePaths [] [(some "A", some (Obj.blob 1)),
              (some "a", some (Obj.blob 2)), (some "b", some Obj.other)]).toFinset,
              ((casePaths [] [(some "A", some (Obj.blob 1)), (some "a", some (Obj.blob 2)),
                (some "b", some Obj.other)]).count k - 1)
        ∧ ((casePaths [] [(some "A", some (Obj.blob 1)), (some "a", some (Obj.blob 2)),
            (some "b", some Obj.other)]).Nodup → c = 0) := by
  have ha : allOkList [(some "A", some (Obj.blob 1)), (some "a", some (Obj.blob 2)),
      (some "b", some Obj.other)] = true := by
    simp [allOkList]
  have hb : allOkList [(some "b", some Obj.other), (some "a", some (Obj.blob 2)),
      (some "A", some (Obj.blob 1))] = true := by
    simp [allOkList]
  have hp : (casePaths [] [(some "A", some (Obj.blob 1)), (some "a", some (Obj.blob 2)),
      (some "b", some Obj.other)]).Perm
      (casePaths [] [(some "b", some Obj.other), (some "a", some (Obj.blob 2)),
        (some "A", some (Obj.blob 1))]) := by
    simp [casePaths]
    decide
  exact ⟨ha, hb, hp, case_collision_count _ _ ha hb hp⟩

end Checklfs
